import Mathlib

/-!
Verification of the court-name harvesting pipeline (deno-courts-info).

JavaScript strings are modelled as lists of UTF-16 code units; every
character handled by this program lies in the Basic Multilingual Plane,
so one `Char` stands for one code unit.  Pure functions of the source are
translated directly; the network fetch, DOM parsing and file writing are
kept abstract (they are declared out of scope by the design document).
-/

namespace CourtsInfo

abbrev Str := List Char

/-- View a Lean string literal as the list of its characters. -/
def str (s : String) : Str := s.data

/-- The terminator token "裁判所" (court). -/
def courtToken : Str := ['裁', '判', '所']

/-- The suffix token "支部" (branch). -/
def branchToken : Str := ['支', '部']

/-- The suffix token "出張所" (sub-office). -/
def subOfficeToken : Str := ['出', '張', '所']

/-- The exclusion marker "内の" (within the premises of). -/
def naiNoToken : Str := ['内', 'の']

/-- Does `pat` occur in `text` starting exactly at position `j`? -/
def matchAt (pat text : Str) (j : Nat) : Bool :=
  decide ((text.drop j).take pat.length = pat)

/-- Model of JavaScript `text.indexOf(pat, i)`: the smallest position
`j ≥ i` at which `pat` occurs in `text`, as an `Option` instead of the
sentinel `-1`. -/
def indexOfFrom (pat text : Str) (i : Nat) : Option Nat :=
  (List.range (text.length + 1)).find? (fun j => decide (i ≤ j) && matchAt pat text j)

/-- The `while` loop of `splitCourts` (src/main.ts): starting at cursor
`i`, repeatedly look for the next "裁判所", emit the slice from the
cursor through the terminator, and move the cursor past it.  The loop is
given explicit fuel; `text.length` steps always suffice (proved below). -/
def splitCourtsLoop : Nat → Str → Nat → List Str
  | 0, _, _ => []
  | fuel + 1, text, i =>
    if i < text.length then
      match indexOfFrom courtToken text i with
      | none => []
      | some j => (text.drop i).take (j + 3 - i) :: splitCourtsLoop fuel text (j + 3)
    else []

/-- `splitCourts` from src/main.ts: cut the input at every occurrence of
"裁判所"; if fewer than two pieces were produced, return the original
string unsplit. -/
def splitCourts (text : Str) : List Str :=
  let results := splitCourtsLoop text.length text 0
  if results.length < 2 then [text] else results

/-- The part of the input that the `splitCourts` scan leaves unconsumed:
the suffix following the last emitted token (the whole remaining suffix
when no further terminator is found). -/
def splitCourtsRem : Nat → Str → Nat → Str
  | 0, text, i => text.drop i
  | fuel + 1, text, i =>
    if i < text.length then
      match indexOfFrom courtToken text i with
      | none => text.drop i
      | some j => splitCourtsRem fuel text (j + 3)
    else text.drop i

/-- Number of positions of `text` at which the terminator "裁判所"
occurs (occurrences of a word on itself cannot overlap, so this is the
plain occurrence count). -/
def countCourt (text : Str) : Nat :=
  ((List.range (text.length + 1)).filter (fun j => matchAt courtToken text j)).length

example : splitCourts (str "釧路地方裁判所釧路家庭裁判所釧路簡易裁判所") =
    [str "釧路地方裁判所", str "釧路家庭裁判所", str "釧路簡易裁判所"] := by decide

example : splitCourts (str "東京地方裁判所") = [str "東京地方裁判所"] := by decide

example : splitCourts (str "a裁判所b裁判所c") = [str "a裁判所", str "b裁判所"] := by decide

theorem matchAt_eq_true {pat text : Str} {j : Nat} (h : matchAt pat text j = true) :
    (text.drop j).take pat.length = pat := by
  simpa [matchAt] using h

theorem indexOfFrom_bounds {pat text : Str} {i j : Nat}
    (h : indexOfFrom pat text i = some j) :
    i ≤ j ∧ j + pat.length ≤ text.length ∧ (text.drop j).take pat.length = pat := by
  have hmem := List.mem_of_find?_eq_some h
  have hj : j ≤ text.length := by
    have := List.mem_range.mp hmem
    omega
  have hp := List.find?_some h
  rw [Bool.and_eq_true] at hp
  have hij : i ≤ j := by simpa using hp.1
  have htk : (text.drop j).take pat.length = pat := matchAt_eq_true hp.2
  refine ⟨hij, ?_, htk⟩
  have hlen : ((text.drop j).take pat.length).length = pat.length := by rw [htk]
  rw [List.length_take, List.length_drop] at hlen
  omega

theorem indexOfFrom_court {text : Str} {i j : Nat}
    (h : indexOfFrom courtToken text i = some j) :
    i ≤ j ∧ j + 3 ≤ text.length ∧ (text.drop j).take 3 = courtToken := by
  have := indexOfFrom_bounds h
  simpa [courtToken] using this

/-- The emitted tokens followed by the unconsumed remainder reassemble the
suffix of the input at which the scan started. -/
theorem splitCourtsLoop_append_rem (fuel : Nat) :
    ∀ (text : Str) (i : Nat),
      (splitCourtsLoop fuel text i).flatten ++ splitCourtsRem fuel text i = text.drop i := by
  induction fuel with
  | zero => intro text i; simp [splitCourtsLoop, splitCourtsRem]
  | succ fuel ih =>
    intro text i
    by_cases hi : i < text.length
    · rcases hidx : indexOfFrom courtToken text i with _ | j
      · simp [splitCourtsLoop, splitCourtsRem, hi, hidx]
      · obtain ⟨hij, hjl, -⟩ := indexOfFrom_court hidx
        have hdd : List.drop (j + 3 - i) (List.drop i text) = List.drop (j + 3) text := by
          rw [List.drop_drop]
          congr 1
          omega
        calc (splitCourtsLoop (fuel + 1) text i).flatten ++ splitCourtsRem (fuel + 1) text i
            = (text.drop i).take (j + 3 - i) ++
                ((splitCourtsLoop fuel text (j + 3)).flatten ++ splitCourtsRem fuel text (j + 3)) := by
              simp [splitCourtsLoop, splitCourtsRem, hi, hidx, List.append_assoc]
          _ = (text.drop i).take (j + 3 - i) ++ List.drop (j + 3) text := by rw [ih]
          _ = (text.drop i).take (j + 3 - i) ++ List.drop (j + 3 - i) (List.drop i text) := by
              rw [hdd]
          _ = text.drop i := List.take_append_drop _ _
    · simp [splitCourtsLoop, splitCourtsRem, hi]

/-- The fuelled loop is insensitive to the exact fuel as soon as the fuel
covers the remaining scan range: the loop genuinely terminates. -/
theorem splitCourtsLoop_fuel_inv :
    ∀ (f₁ f₂ : Nat) (text : Str) (i : Nat),
      text.length - i ≤ f₁ → text.length - i ≤ f₂ →
      splitCourtsLoop f₁ text i = splitCourtsLoop f₂ text i := by
  intro f₁
  induction f₁ with
  | zero =>
    intro f₂ text i h₁ h₂
    have hi : ¬ i < text.length := by omega
    cases f₂ with
    | zero => rfl
    | succ f₂ => simp [splitCourtsLoop, hi]
  | succ f₁ ih =>
    intro f₂ text i h₁ h₂
    cases f₂ with
    | zero =>
      have hi : ¬ i < text.length := by omega
      simp [splitCourtsLoop, hi]
    | succ f₂ =>
      by_cases hi : i < text.length
      · rcases hidx : indexOfFrom courtToken text i with _ | j
        · simp [splitCourtsLoop, hi, hidx]
        · obtain ⟨hij, hjl, -⟩ := indexOfFrom_court hidx
          have hrec := ih f₂ text (j + 3) (by omega) (by omega)
          simp [splitCourtsLoop, hi, hidx, hrec]
      · simp [splitCourtsLoop, hi]

/-- Each loop iteration consumes at least the three code units of the
terminator, bounding the number of emitted tokens. -/
theorem splitCourtsLoop_three (fuel : Nat) :
    ∀ (text : Str) (i : Nat), 3 * (splitCourtsLoop fuel text i).length ≤ text.length - i := by
  induction fuel with
  | zero => intro text i; simp [splitCourtsLoop]
  | succ fuel ih =>
    intro text i
    by_cases hi : i < text.length
    · rcases hidx : indexOfFrom courtToken text i with _ | j
      · simp [splitCourtsLoop, hi, hidx]
      · obtain ⟨hij, hjl, -⟩ := indexOfFrom_court hidx
        have := ih text (j + 3)
        simp only [splitCourtsLoop, hi, if_true, hidx, List.length_cons]
        omega
    · simp [splitCourtsLoop, hi]

theorem two_le_length_of_nodup {α : Type} {l : List α} {a b : α}
    (hnd : l.Nodup) (ha : a ∈ l) (hb : b ∈ l) (hab : a ≠ b) : 2 ≤ l.length := by
  match l with
  | [] => cases ha
  | [x] =>
    rw [List.mem_singleton] at ha hb
    exact absurd (ha.trans hb.symm) hab
  | x :: y :: t => simp

theorem splitCourtsLoop_one {fuel : Nat} {text : Str} {i : Nat}
    (h : 1 ≤ (splitCourtsLoop fuel text i).length) :
    ∃ j, indexOfFrom courtToken text i = some j := by
  match fuel with
  | 0 => simp [splitCourtsLoop] at h
  | fuel + 1 =>
    by_cases hi : i < text.length
    · rcases hidx : indexOfFrom courtToken text i with _ | j
      · simp [splitCourtsLoop, hi, hidx] at h
      · exact ⟨j, rfl⟩
    · simp [splitCourtsLoop, hi] at h

theorem splitCourtsLoop_two {fuel : Nat} {text : Str} {i : Nat}
    (h : 2 ≤ (splitCourtsLoop fuel text i).length) :
    ∃ j₁ j₂, indexOfFrom courtToken text i = some j₁ ∧
      indexOfFrom courtToken text (j₁ + 3) = some j₂ := by
  match fuel with
  | 0 => simp [splitCourtsLoop] at h
  | fuel + 1 =>
    by_cases hi : i < text.length
    · rcases hidx : indexOfFrom courtToken text i with _ | j₁
      · simp [splitCourtsLoop, hi, hidx] at h
      · simp only [splitCourtsLoop, hi, if_true, hidx, List.length_cons] at h
        obtain ⟨j₂, hidx₂⟩ :=
          @splitCourtsLoop_one fuel text (j₁ + 3) (by omega)
        exact ⟨j₁, j₂, rfl, hidx₂⟩
    · simp [splitCourtsLoop, hi] at h

theorem countCourt_two {text : Str} {j₁ j₂ : Nat} (hlt : j₁ < j₂)
    (h₁ : matchAt courtToken text j₁ = true) (h₂ : matchAt courtToken text j₂ = true)
    (hb₂ : j₂ ≤ text.length) : 2 ≤ countCourt text := by
  have hb₁ : j₁ ≤ text.length := le_of_lt (lt_of_lt_of_le hlt hb₂)
  have hm₁ : j₁ ∈ (List.range (text.length + 1)).filter (fun j => matchAt courtToken text j) :=
    List.mem_filter.mpr ⟨List.mem_range.mpr (by omega), h₁⟩
  have hm₂ : j₂ ∈ (List.range (text.length + 1)).filter (fun j => matchAt courtToken text j) :=
    List.mem_filter.mpr ⟨List.mem_range.mpr (by omega), h₂⟩
  have hnd := (List.nodup_range (text.length + 1)).filter (fun j => matchAt courtToken text j)
  exact two_le_length_of_nodup hnd hm₁ hm₂ (by omega)

/-- C2 — Minimum-split policy: an input containing at most one occurrence
of the terminator "裁判所" is returned unsplit, as a one-element list. -/
theorem splitCourts_min_split (text : Str) (h : countCourt text ≤ 1) :
    splitCourts text = [text] := by
  rw [splitCourts]
  by_cases hlen : (splitCourtsLoop text.length text 0).length < 2
  · simp [hlen]
  · exfalso
    obtain ⟨j₁, j₂, hidx₁, hidx₂⟩ :=
      @splitCourtsLoop_two text.length text 0 (by omega)
    obtain ⟨-, hb₁, -⟩ := indexOfFrom_court hidx₁
    obtain ⟨hij₂, hb₂, -⟩ := indexOfFrom_court hidx₂
    have hp₁ := (List.find?_some hidx₁)
    rw [Bool.and_eq_true] at hp₁
    have hp₂ := (List.find?_some hidx₂)
    rw [Bool.and_eq_true] at hp₂
    have := @countCourt_two text j₁ j₂ (by omega) hp₁.2 hp₂.2 (by omega)
    omega

/-- C2 witness: the seven-character name 東京地方裁判所 contains the
terminator once and is returned unsplit. -/
theorem splitCourts_min_split_witness :
    countCourt (str "東京地方裁判所") ≤ 1 ∧ splitCourts (str "東京地方裁判所") = [str "東京地方裁判所"] :=
  ⟨by decide, splitCourts_min_split (str "東京地方裁判所") (by decide)⟩

/-- C1 counterexample: with two terminators and trailing text, the
concatenation of the emitted tokens loses the trailing "c". -/
theorem splitCourts_roundtrip_cex :
    ¬ ((splitCourts (str "a裁判所b裁判所c")).flatten = str "a裁判所b裁判所c") := by decide

/-- C1 (amended) — Tokenizer round-trip, as the code actually behaves:
the concatenation of the tokens is always a prefix of the input, and it
equals the input exactly when fewer than two tokens were produced (the
input is then returned whole) or when the scan leaves no unconsumed
trailing text after the last terminator. -/
theorem splitCourts_roundtrip (text : Str) :
    (∃ rest, (splitCourts text).flatten ++ rest = text) ∧
    ((splitCourts text).flatten = text ↔
      ((splitCourtsLoop text.length text 0).length < 2 ∨
        splitCourtsRem text.length text 0 = [])) := by
  have hjoin := splitCourtsLoop_append_rem text.length text 0
  rw [List.drop_zero] at hjoin
  by_cases hlen : (splitCourtsLoop text.length text 0).length < 2
  · have hsc : splitCourts text = [text] := by simp [splitCourts, hlen]
    rw [hsc]
    refine ⟨⟨[], by simp⟩, ?_⟩
    simp [hlen]
  · have hsc : splitCourts text = splitCourtsLoop text.length text 0 := by
      simp [splitCourts, hlen]
    rw [hsc]
    refine ⟨⟨splitCourtsRem text.length text 0, hjoin⟩, ?_⟩
    constructor
    · intro heq
      right
      have : (splitCourtsLoop text.length text 0).flatten ++ splitCourtsRem text.length text 0 =
          (splitCourtsLoop text.length text 0).flatten ++ [] := by
        rw [hjoin, heq]; simp
      exact List.append_cancel_left this
    · rintro (h | h)
      · exact absurd h hlen
      · rw [h] at hjoin; simpa using hjoin

/-- C10 — Tokenizer termination: the scan is finished within
`text.length` iterations (more fuel changes nothing), because every
iteration consumes at least the three code units of the terminator —
hence at most `text.length / 3` tokens are ever emitted. -/
theorem splitCourtsLoop_terminates (text : Str) (fuel : Nat) (h : text.length ≤ fuel) :
    splitCourtsLoop fuel text 0 = splitCourtsLoop text.length text 0 ∧
    3 * (splitCourtsLoop fuel text 0).length ≤ text.length := by
  have hstab := splitCourtsLoop_fuel_inv fuel text.length text 0 (by omega) (by omega)
  refine ⟨hstab, ?_⟩
  rw [hstab]
  have := splitCourtsLoop_three text.length text 0
  omega

/-- C10 witness: concrete run with surplus fuel. -/
theorem splitCourtsLoop_terminates_witness :
    splitCourtsLoop 50 (str "a裁判所") 0 = splitCourtsLoop (str "a裁判所").length (str "a裁判所") 0 ∧
    3 * (splitCourtsLoop 50 (str "a裁判所") 0).length ≤ (str "a裁判所").length :=
  splitCourtsLoop_terminates (str "a裁判所") 50 (by decide)

/-- The code units matched by the JavaScript regular-expression class
`\s` (ECMAScript WhiteSpace and LineTerminator), which is also the set
stripped by `String.prototype.trim`. -/
def jsSpaceChars : List Char :=
  ['\t', '\n', '\u000B', '\u000C', '\r', ' ', '\u00A0', '\u1680',
   '\u2000', '\u2001', '\u2002', '\u2003', '\u2004', '\u2005', '\u2006',
   '\u2007', '\u2008', '\u2009', '\u200A', '\u2028', '\u2029', '\u202F',
   '\u205F', '\u3000', '\uFEFF']

def isJsSpace (c : Char) : Bool := jsSpaceChars.contains c

/-- Model of JavaScript `s.trim()`: strip whitespace from both ends. -/
def jsTrim (s : Str) : Str :=
  ((s.dropWhile isJsSpace).reverse.dropWhile isJsSpace).reverse

/-- The decorative-punctuation class `[，．･・]` of the final cleanup. -/
def punctChars : List Char := ['，', '．', '･', '・']

/-- A character removed by the final cleanup pass `[，．･・]|\s`. -/
def isStripChar (c : Char) : Bool := punctChars.contains c || isJsSpace c

/-- The final cleanup, `s.trim().replace(/[，．･・]|\s/g, "")`: trim,
then delete decorative punctuation and all whitespace anywhere. -/
def cleanupFinal (s : Str) : Str :=
  (jsTrim s).filter (fun c => ! isStripChar c)

/-- Global leftmost non-overlapping replacement, the model of
`s.replace(/pat/g, rep)` for a fixed non-empty pattern.  Fuel
`s.length + 1` always suffices since each step consumes at least one
character of `s`. -/
def replaceAllFuel : Nat → Str → Str → Str → Str
  | 0, _, _, s => s
  | fuel + 1, pat, rep, s =>
    match indexOfFrom pat s 0 with
    | none => s
    | some j => s.take j ++ rep ++ replaceAllFuel fuel pat rep (s.drop (j + pat.length))

def replaceAll (pat rep s : Str) : Str := replaceAllFuel (s.length + 1) pat rep s

/-- Model of JavaScript `s.split("\n")`. -/
def splitOnNl : Str → List Str
  | [] => [[]]
  | c :: rest =>
    if c = '\n' then [] :: splitOnNl rest
    else
      match splitOnNl rest with
      | [] => [[c]]
      | line :: more => (c :: line) :: more

/-- The suffix-marker expansion of src/main.ts:
`s.replace(/支部/g, "支部\n").replace(/出張所/g, "出張所\n").replace(/・/g, "\n")`
followed by `split("\n")`, trimming each line and dropping lines that are
empty after trimming. -/
def normalizeLines (s : Str) : List Str :=
  let t := replaceAll ['・'] ['\n']
    (replaceAll subOfficeToken (subOfficeToken ++ ['\n'])
      (replaceAll branchToken (branchToken ++ ['\n']) s))
  ((splitOnNl t).map jsTrim).filter (fun line => decide (0 < (jsTrim line).length))

/-- Model of JavaScript `s.endsWith(sfx)`. -/
def endsWith (s sfx : Str) : Bool := matchAt sfx s (s.length - sfx.length)

/-- First candidate filter of src/main.ts:
`s.endsWith("裁判所") || s.endsWith("支部")`. -/
def filterSfx (s : Str) : Bool := endsWith s courtToken || endsWith s branchToken

/-- First candidate filter of the variant source (src/unnamed/part_000):
the suffix set additionally accepts "出張所". -/
def filterSfxAlt (s : Str) : Bool :=
  endsWith s courtToken || endsWith s branchToken || endsWith s subOfficeToken

/-- Second candidate filter (all sources):
`s.indexOf("内の") == -1 && s.indexOf("/") == -1`. -/
def filterExcl (s : Str) : Bool :=
  (indexOfFrom naiNoToken s 0).isNone && (indexOfFrom ['/'] s 0).isNone

/-- First-occurrence deduplication: the list obtained by iterating a
JavaScript `Set` built from `l` (insertion order, later duplicates
ignored). -/
def setDedup : List Str → List Str
  | [] => []
  | x :: xs => x :: (setDedup xs).filter (fun y => decide (y ≠ x))

/-- Stable insertion into a sorted list: the new element goes in front of
the first element it compares less-or-equal to. -/
def insertLe (le : Str → Str → Bool) (x : Str) : List Str → List Str
  | [] => [x]
  | y :: ys => if le x y then x :: y :: ys else y :: insertLe le x ys

/-- Stable sort by insertion.  `Array.prototype.sort` is required to be
stable (ES2019), and a stable sort's output is determined uniquely by the
comparator, so insertion sort is a faithful model of `.sort(...)`. -/
def sortBy (le : Str → Str → Bool) : List Str → List Str
  | [] => []
  | x :: xs => insertLe le x (sortBy le xs)

/-- JavaScript default string comparison: lexicographic on code units. -/
def lexLe : Str → Str → Bool
  | [], _ => true
  | _ :: _, [] => false
  | a :: as, b :: bs =>
    if a.toNat < b.toNat then true
    else if b.toNat < a.toNat then false
    else lexLe as bs

/-- The comparator `(a, b) => a.length - b.length` of the second sort. -/
def lenLe (a b : Str) : Bool := decide (a.length ≤ b.length)

/-- The aggregation tail of `scrapePage`:
`new Set(lines)`, spread and `.sort()` (lexicographic), then
`.sort((a, b) => a.length - b.length)` (stable, by length). -/
def aggregate (lines : List Str) : List Str :=
  sortBy lenLe (sortBy lexLe (setDedup lines))

/-- The pure post-extraction pipeline of `scrapePage` in src/main.ts,
applied to the raw candidate strings pulled from the document: suffix
filter, exclusion filter, suffix-marker expansion, tokenization, final
cleanup, then dedup-and-sort.  (src/main.ts has no empty-string filter
after the final cleanup.) -/
def processCandidates (cands : List Str) : List Str :=
  aggregate
    (((((cands.filter filterSfx).filter filterExcl).map normalizeLines).flatten.map
        splitCourts).flatten.map cleanupFinal)

/-- The loop of `splitCourts` in the variant source (src/unnamed/part_000):
after finding a terminator it looks ahead for a further terminator; when
one exists it emits the slice up to the current terminator, otherwise it
emits the whole remaining suffix and stops. -/
def splitCourtsAltLoop : Nat → Str → Nat → List Str
  | 0, _, _ => []
  | fuel + 1, text, startPos =>
    if startPos < text.length then
      match indexOfFrom courtToken text startPos with
      | none => []
      | some j =>
        match indexOfFrom courtToken text (j + 3) with
        | some _ => (text.drop startPos).take (j + 3 - startPos) ::
            splitCourtsAltLoop fuel text (j + 3)
        | none => [text.drop startPos]
    else []

/-- `splitCourts` of src/unnamed/part_000 (no minimum-split fallback). -/
def splitCourtsAlt (text : Str) : List Str := splitCourtsAltLoop text.length text 0

/-- One scan step of the variant marker expansion
`s.replace(/(支部|出張所|・)/g, "$1\n")` (src/unnamed/part_000): at each
position try the alternatives in order, keep the matched marker and
insert a line break after it.  The three alternatives begin with three
distinct characters, so the scan is deterministic. -/
def markBreaksFuel : Nat → Str → Str
  | 0, s => s
  | fuel + 1, s =>
    match s with
    | [] => []
    | c :: rest =>
      if matchAt branchToken s 0 then
        branchToken ++ '\n' :: markBreaksFuel fuel (s.drop 2)
      else if matchAt subOfficeToken s 0 then
        subOfficeToken ++ '\n' :: markBreaksFuel fuel (s.drop 3)
      else if c = '・' then
        '・' :: '\n' :: markBreaksFuel fuel rest
      else
        c :: markBreaksFuel fuel rest

/-- The suffix-marker expansion and line splitting of the variant source
(src/unnamed/part_000). -/
def normalizeLinesAlt (s : Str) : List Str :=
  ((splitOnNl (markBreaksFuel s.length s)).map jsTrim).filter
    (fun line => decide (0 < (jsTrim line).length))

/-- The pure post-extraction pipeline of `scrapePage` in
src/unnamed/part_000: wider suffix set, same exclusion filter, one-regex
marker expansion, look-ahead tokenizer, final cleanup, an explicit
empty-string filter, then dedup-and-sort. -/
def processCandidatesAlt (cands : List Str) : List Str :=
  aggregate
    ((((((cands.filter filterSfxAlt).filter filterExcl).map normalizeLinesAlt).flatten.map
        splitCourtsAlt).flatten.map cleanupFinal).filter (fun s => decide (0 < s.length)))

/-- The per-URL outcome stored by `scrapePages`. -/
structure ScrapeResult where
  url : Str
  data : List Str
  deriving DecidableEq

/-- The combined data of src/main.ts `main`:
`results.flatMap((result) => result.data)` — plain concatenation, no
deduplication. -/
def combineAll (results : List ScrapeResult) : List Str :=
  (results.map (fun r => r.data)).flatten

/-- The combined data of src/unnamed/part_000 `main`:
`Array.from(new Set(results.flatMap((result) => result.data)))` —
deduplicated in first-occurrence order, not re-sorted. -/
def combineAllAlt (results : List ScrapeResult) : List Str :=
  setDedup (combineAll results)

/-- Condition under which `main` writes the combined output file:
`0 < allData.length`. -/
def combinedFileWritten (results : List ScrapeResult) : Bool :=
  decide (0 < (combineAll results).length)

/-- The crawl loop of `scrapePages`: the per-URL scraping (fetch, parse,
extraction) is abstracted as a function returning either the per-URL name
list or an error.  Each URL is tried in order; a success is pushed onto
the results, a failure is logged (second component) and skipped. -/
def scrapePagesRun {ε : Type} (f : Str → Except ε (List Str)) :
    List Str → List ScrapeResult × List ε
  | [] => ([], [])
  | u :: rest =>
    match f u, scrapePagesRun f rest with
    | Except.ok d, (rs, es) => (⟨u, d⟩ :: rs, es)
    | Except.error e, (rs, es) => (rs, e :: es)

def isOkE {ε α : Type} : Except ε α → Bool
  | Except.ok _ => true
  | Except.error _ => false

/-- A concrete three-URL fetch stub whose second URL fails. -/
def sampleFetch : Str → Except Str (List Str) :=
  fun u => if u = str "u2" then Except.error (str "HTTP 500") else Except.ok [u]

theorem insertLe_mem {le : Str → Str → Bool} {x a : Str} :
    ∀ {l : List Str}, a ∈ insertLe le x l ↔ a = x ∨ a ∈ l := by
  intro l
  induction l with
  | nil => simp [insertLe]
  | cons y ys ih =>
    rw [insertLe]
    by_cases hxy : le x y
    · simp [hxy]
    · simp only [if_neg hxy, List.mem_cons, ih]
      tauto

theorem sortBy_mem {le : Str → Str → Bool} {a : Str} :
    ∀ {l : List Str}, a ∈ sortBy le l ↔ a ∈ l := by
  intro l
  induction l with
  | nil => simp [sortBy]
  | cons x xs ih => simp [sortBy, insertLe_mem, ih]

theorem insertLe_perm (le : Str → Str → Bool) (x : Str) :
    ∀ (l : List Str), List.Perm (insertLe le x l) (x :: l) := by
  intro l
  induction l with
  | nil => simp [insertLe]
  | cons y ys ih =>
    rw [insertLe]
    by_cases hxy : le x y
    · simp [hxy]
    · rw [if_neg hxy]
      exact (List.Perm.cons y ih).trans (List.Perm.swap x y ys)

theorem sortBy_perm (le : Str → Str → Bool) :
    ∀ (l : List Str), List.Perm (sortBy le l) l := by
  intro l
  induction l with
  | nil => simp [sortBy]
  | cons x xs ih =>
    exact (insertLe_perm le x (sortBy le xs)).trans (List.Perm.cons x ih)

theorem setDedup_mem {a : Str} : ∀ {l : List Str}, a ∈ setDedup l ↔ a ∈ l := by
  intro l
  induction l with
  | nil => simp [setDedup]
  | cons x xs ih =>
    simp only [setDedup, List.mem_cons, List.mem_filter, ih, decide_eq_true_eq]
    by_cases hax : a = x <;> tauto

theorem setDedup_nodup : ∀ (l : List Str), (setDedup l).Nodup := by
  intro l
  induction l with
  | nil => simp [setDedup]
  | cons x xs ih =>
    refine List.Nodup.cons ?_ (ih.filter _)
    intro hmem
    have := (List.mem_filter.mp hmem).2
    simp at this

theorem aggregate_mem {a : Str} {lines : List Str} :
    a ∈ aggregate lines ↔ a ∈ lines := by
  rw [aggregate, sortBy_mem, sortBy_mem, setDedup_mem]

theorem aggregate_nodup (lines : List Str) : (aggregate lines).Nodup := by
  have h₁ := (sortBy_perm lexLe (setDedup lines)).nodup_iff.mpr (setDedup_nodup lines)
  exact (sortBy_perm lenLe (sortBy lexLe (setDedup lines))).nodup_iff.mpr h₁

theorem lexLe_total : ∀ (a b : Str), lexLe a b = true ∨ lexLe b a = true := by
  intro a
  induction a with
  | nil => intro b; left; rfl
  | cons c cs ih =>
    intro b
    match b with
    | [] => right; rfl
    | d :: ds =>
      by_cases hcd : c.toNat < d.toNat
      · left; simp [lexLe, hcd]
      · by_cases hdc : d.toNat < c.toNat
        · right; simp [lexLe, hdc]
        · rcases ih ds with h | h
          · left; simp [lexLe, hcd, hdc, h]
          · right; simp [lexLe, hcd, hdc, h]

theorem lexLe_trans :
    ∀ {a b c : Str}, lexLe a b = true → lexLe b c = true → lexLe a c = true := by
  intro a
  induction a with
  | nil => intro b c _ _; rfl
  | cons x xs ih =>
    intro b c hab hbc
    match b, c with
    | [], _ => simp [lexLe] at hab
    | _ :: _, [] => simp [lexLe] at hbc
    | y :: ys, z :: zs =>
      simp only [lexLe] at hab hbc ⊢
      by_cases hxy : x.toNat < y.toNat
      · by_cases hyz : y.toNat < z.toNat
        · simp [show x.toNat < z.toNat by omega]
        · by_cases hzy : z.toNat < y.toNat
          · simp [hyz, hzy] at hbc
          · simp [show x.toNat < z.toNat by omega]
      · by_cases hyx : y.toNat < x.toNat
        · simp [hxy, hyx] at hab
        · have hxyeq : x.toNat = y.toNat := by omega
          by_cases hyz : y.toNat < z.toNat
          · simp [show x.toNat < z.toNat by omega]
          · by_cases hzy : z.toNat < y.toNat
            · simp [hyz, hzy] at hbc
            · simp only [hxy, hyx, if_false] at hab
              simp only [hyz, hzy, if_false] at hbc
              simp [show ¬ x.toNat < z.toNat by omega, show ¬ z.toNat < x.toNat by omega,
                ih hab hbc]

theorem lenLe_total : ∀ (a b : Str), lenLe a b = true ∨ lenLe b a = true := by
  intro a b
  simp only [lenLe, decide_eq_true_eq]
  omega

theorem insertLe_pairwise {le : Str → Str → Bool}
    (htot : ∀ a b, le a b = true ∨ le b a = true)
    (htr : ∀ {a b c}, le a b = true → le b c = true → le a c = true)
    {x : Str} :
    ∀ {l : List Str}, l.Pairwise (fun a b => le a b = true) →
      (insertLe le x l).Pairwise (fun a b => le a b = true) := by
  intro l
  induction l with
  | nil => intro _; simp [insertLe]
  | cons y ys ih =>
    intro hp
    rcases List.pairwise_cons.mp hp with ⟨hy, hys⟩
    by_cases hxy : le x y
    · have hall : ∀ b ∈ y :: ys, le x b = true := by
        intro b hb
        rcases List.mem_cons.mp hb with rfl | hb
        · exact hxy
        · exact htr hxy (hy b hb)
      simp only [insertLe, hxy, if_true]
      exact List.pairwise_cons.mpr ⟨hall, hp⟩
    · have hyx : le y x = true := (htot x y).resolve_left (by simpa using hxy)
      simp only [insertLe, hxy, if_false]
      refine List.pairwise_cons.mpr ⟨?_, ih hys⟩
      intro b hb
      rcases insertLe_mem.mp hb with rfl | hb
      · exact hyx
      · exact hy b hb

theorem sortBy_pairwise {le : Str → Str → Bool}
    (htot : ∀ a b, le a b = true ∨ le b a = true)
    (htr : ∀ {a b c}, le a b = true → le b c = true → le a c = true) :
    ∀ (l : List Str), (sortBy le l).Pairwise (fun a b => le a b = true) := by
  intro l
  induction l with
  | nil => simp [sortBy]
  | cons x xs ih => exact insertLe_pairwise htot htr ih

/-- The intended output order of the Aggregator: strictly shorter first,
names of equal length in lexicographic order. -/
def lenLexOrd (a b : Str) : Prop :=
  a.length < b.length ∨ (a.length = b.length ∧ lexLe a b = true)

theorem insertLe_lenLex {x : Str} :
    ∀ {l : List Str}, l.Pairwise lenLexOrd → (∀ b ∈ l, lexLe x b = true) →
      (insertLe lenLe x l).Pairwise lenLexOrd := by
  intro l
  induction l with
  | nil => intro _ _; simp [insertLe, List.pairwise_cons]
  | cons y ys ih =>
    intro hp hx
    rcases List.pairwise_cons.mp hp with ⟨hy, hys⟩
    rw [insertLe]
    by_cases hxy : lenLe x y
    · rw [if_pos hxy]
      refine List.pairwise_cons.mpr ⟨?_, hp⟩
      intro b hb
      have hxylen : x.length ≤ y.length := by simpa [lenLe] using hxy
      have hyb : y.length ≤ b.length := by
        rcases List.mem_cons.mp hb with rfl | hb
        · omega
        · rcases hy b hb with h | ⟨h, -⟩ <;> omega
      rcases Nat.lt_or_ge x.length b.length with h | h
      · exact Or.inl h
      · exact Or.inr ⟨by omega, hx b hb⟩
    · rw [if_neg hxy]
      have hyx : y.length < x.length := by
        simp only [lenLe, decide_eq_true_eq] at hxy
        omega
      refine List.pairwise_cons.mpr ⟨?_, ih hys (fun b hb => hx b (List.mem_cons_of_mem y hb))⟩
      intro b hb
      rcases insertLe_mem.mp hb with rfl | hb
      · exact Or.inl hyx
      · exact hy b hb

/-- The second, purely length-keyed stable sort keeps the lexicographic
order established by the first sort among names of equal length. -/
theorem sortBy_lenLe_lenLex :
    ∀ {l : List Str}, l.Pairwise (fun a b => lexLe a b = true) →
      (sortBy lenLe l).Pairwise lenLexOrd := by
  intro l
  induction l with
  | nil => intro _; simp [sortBy]
  | cons x xs ih =>
    intro hp
    rcases List.pairwise_cons.mp hp with ⟨hx, hxs⟩
    rw [sortBy]
    refine insertLe_lenLex (ih hxs) ?_
    intro b hb
    exact hx b (sortBy_mem.mp hb)

/-- C5 — Aggregator dedup and ordering: for every input list of names,
the aggregation step (dedup via a set, lexicographic sort, then a stable
sort keyed purely on length) contains each distinct input name exactly
once, in ascending length order with equal-length names in lexicographic
(code-unit) order. -/
theorem aggregate_ordered (lines : List Str) :
    (aggregate lines).Nodup ∧
    (∀ a, a ∈ aggregate lines ↔ a ∈ lines) ∧
    (aggregate lines).Pairwise lenLexOrd := by
  refine ⟨aggregate_nodup lines, fun a => aggregate_mem, ?_⟩
  exact sortBy_lenLe_lenLex (sortBy_pairwise lexLe_total lexLe_trans (setDedup lines))

/-- C4 counterexample: in src/main.ts the candidate "支部．・支部" is
accepted, the isolated punctuation line "．" survives normalization,
becomes the empty string under final cleanup, and — there being no
empty-string filter in this variant — reaches the output. -/
theorem processCandidates_empty_cex :
    ¬ (∀ s ∈ processCandidates [str "支部．・支部"], s ≠ []) := by decide

/-- C4 (amended) — Empty-token discarding holds in the variant pipeline
(src/unnamed/part_000), which filters out strings that the final cleanup
made empty: every string it outputs is non-empty.  (src/main.ts lacks
this filter and can output the empty string, see the counterexample.) -/
theorem processCandidatesAlt_nonempty (cands : List Str) (s : Str)
    (h : s ∈ processCandidatesAlt cands) : s ≠ [] := by
  rw [processCandidatesAlt, aggregate_mem] at h
  have := (List.mem_filter.mp h).2
  simp only [decide_eq_true_eq] at this
  intro hnil
  rw [hnil] at this
  simp at this

/-- C4 witness: a concrete clean name flows through the variant pipeline
and is indeed non-empty. -/
theorem processCandidatesAlt_nonempty_witness : str "Ａ地方裁判所" ≠ [] :=
  processCandidatesAlt_nonempty [str "Ａ地方裁判所Ｂ家庭裁判所支部"] (str "Ａ地方裁判所")
    (by decide)

/-- C9 — Idempotence of the final cleanup: a string containing none of
the stripped characters is left unchanged, and applying the cleanup twice
always equals applying it once. -/
theorem cleanupFinal_idem (s : Str) :
    ((∀ c ∈ s, isStripChar c = false) → cleanupFinal s = s) ∧
    cleanupFinal (cleanupFinal s) = cleanupFinal s := by
  have hdw : ∀ (l : Str), (∀ c ∈ l, isJsSpace c = false) → l.dropWhile isJsSpace = l := by
    intro l hl
    cases l with
    | nil => rfl
    | cons c cs => rw [List.dropWhile_cons, hl c (List.mem_cons_self c cs)]; simp
  have htrim : ∀ (l : Str), (∀ c ∈ l, isJsSpace c = false) → jsTrim l = l := by
    intro l hl
    rw [jsTrim, hdw l hl, hdw l.reverse (fun c hc => hl c (List.mem_reverse.mp hc)),
      List.reverse_reverse]
  have hid : ∀ (l : Str), (∀ c ∈ l, isStripChar c = false) → cleanupFinal l = l := by
    intro l hl
    have hsp : ∀ c ∈ l, isJsSpace c = false := by
      intro c hc
      have := hl c hc
      rw [isStripChar, Bool.or_eq_false_iff] at this
      exact this.2
    rw [cleanupFinal, htrim l hsp]
    rw [List.filter_eq_self]
    intro c hc
    rw [hl c hc]
    rfl
  refine ⟨hid s, ?_⟩
  refine hid (cleanupFinal s) ?_
  intro c hc
  have := (List.mem_filter.mp hc).2
  rw [Bool.not_eq_true'] at this
  exact this

/-- C9 witness: an already-clean name is fixed by the cleanup. -/
theorem cleanupFinal_idem_witness :
    cleanupFinal (str "甲裁判所") = str "甲裁判所" :=
  (cleanupFinal_idem (str "甲裁判所")).1 (by decide)

theorem endsWith_iff {s sfx : Str} : endsWith s sfx = true ↔ ∃ u, s = u ++ sfx := by
  constructor
  · intro h
    rw [endsWith] at h
    have htk := matchAt_eq_true h
    have hsl : sfx.length ≤ s.length := by
      have : ((s.drop (s.length - sfx.length)).take sfx.length).length = sfx.length := by
        rw [htk]
      rw [List.length_take, List.length_drop] at this
      omega
    have hdl : (s.drop (s.length - sfx.length)).length = sfx.length := by
      rw [List.length_drop]
      omega
    have hfull := @List.take_of_length_le Char sfx.length
      (s.drop (s.length - sfx.length)) (by omega)
    have hdrop : s.drop (s.length - sfx.length) = sfx := by rw [← hfull, htk]
    refine ⟨s.take (s.length - sfx.length), ?_⟩
    calc s = s.take (s.length - sfx.length) ++ s.drop (s.length - sfx.length) :=
          (List.take_append_drop _ s).symm
      _ = s.take (s.length - sfx.length) ++ sfx := by rw [hdrop]
  · rintro ⟨u, rfl⟩
    have hd : (u ++ sfx).length - sfx.length = u.length := by
      rw [List.length_append]
      omega
    rw [endsWith, hd, matchAt, List.drop_left]
    simp [List.take_of_length_le]

theorem indexOfFrom_isSome_iff {pat s : Str} :
    (indexOfFrom pat s 0).isSome = true ↔ ∃ u v, s = u ++ pat ++ v := by
  rw [indexOfFrom, List.find?_isSome]
  constructor
  · rintro ⟨j, -, hp⟩
    rw [Bool.and_eq_true] at hp
    have htk := matchAt_eq_true hp.2
    refine ⟨s.take j, (s.drop j).drop pat.length, ?_⟩
    conv_lhs => rw [← List.take_append_drop j s]
    conv_lhs => rw [← List.take_append_drop pat.length (s.drop j)]
    rw [htk, List.append_assoc]
  · rintro ⟨u, v, rfl⟩
    refine ⟨u.length, List.mem_range.mpr ?_, ?_⟩
    · simp only [List.length_append]
      omega
    · rw [Bool.and_eq_true]
      refine ⟨by simp, ?_⟩
      rw [matchAt, List.append_assoc, List.drop_left]
      simp [List.take_left]

theorem contains_of_isNone {pat s : Str} :
    (indexOfFrom pat s 0).isNone = true ↔ ¬ ∃ u v, s = u ++ pat ++ v := by
  rw [← indexOfFrom_isSome_iff]
  cases indexOfFrom pat s 0 <;> simp

/-- C6 — Candidate filter acceptance: a raw candidate passes the two
filters of `scrapePage` exactly when it ends with an accepted suffix
token ("裁判所" or "支部" in src/main.ts; additionally "出張所" in
src/unnamed/part_000) and contains neither the substring "内の" nor the
character "/". -/
theorem candidate_filter_iff (s : Str) :
    ((filterSfx s && filterExcl s) = true ↔
      (((∃ u, s = u ++ courtToken) ∨ (∃ u, s = u ++ branchToken)) ∧
        ¬ (∃ u v, s = u ++ naiNoToken ++ v) ∧ ¬ (∃ u v, s = u ++ ['/'] ++ v))) ∧
    ((filterSfxAlt s && filterExcl s) = true ↔
      (((∃ u, s = u ++ courtToken) ∨ (∃ u, s = u ++ branchToken) ∨
          (∃ u, s = u ++ subOfficeToken)) ∧
        ¬ (∃ u v, s = u ++ naiNoToken ++ v) ∧ ¬ (∃ u v, s = u ++ ['/'] ++ v))) := by
  have hexcl : filterExcl s = true ↔
      (¬ (∃ u v, s = u ++ naiNoToken ++ v) ∧ ¬ (∃ u v, s = u ++ ['/'] ++ v)) := by
    rw [filterExcl, Bool.and_eq_true, contains_of_isNone, contains_of_isNone]
  constructor
  · rw [Bool.and_eq_true, hexcl, filterSfx, Bool.or_eq_true, endsWith_iff, endsWith_iff]
  · rw [Bool.and_eq_true, hexcl, filterSfxAlt, Bool.or_eq_true, Bool.or_eq_true,
      endsWith_iff, endsWith_iff, endsWith_iff, or_assoc]

/-- C3 counterexample: in src/main.ts the combined data is the plain
concatenation of the per-URL lists, so a name shared by two URLs appears
twice in the combined output. -/
theorem combineAll_cex :
    ¬ (combineAll [⟨str "u1", [str "甲裁判所"]⟩, ⟨str "u2", [str "甲裁判所"]⟩]).Nodup := by
  decide

/-- C3 (amended) — the combined data of src/main.ts is the in-order
concatenation of all per-URL name lists, multiplicities included (no
cross-URL deduplication and no re-sort); the variant src/unnamed/part_000
does deduplicate it — keeping first occurrences, again without re-sorting
— so there every name of any per-URL list appears exactly once. -/
theorem combineAll_spec (results : List ScrapeResult) (a : Str) :
    (combineAll results).count a = (results.map (fun r => r.data.count a)).sum ∧
    (combineAllAlt results).Nodup ∧
    (a ∈ combineAllAlt results ↔ a ∈ combineAll results) := by
  refine ⟨?_, setDedup_nodup _, setDedup_mem⟩
  induction results with
  | nil => simp [combineAll]
  | cons r rs ih =>
    simp only [combineAll, List.map_cons, List.flatten_cons, List.count_append,
      List.sum_cons] at ih ⊢
    omega

/-- C7 — Per-URL failure isolation in `scrapePages`: with the per-URL
scraping abstracted as `f`, the crawl records exactly the successful URLs,
in input order, each paired with its scraped data; every failing URL
contributes only its logged error, and the loop always runs the whole
list. -/
theorem scrapePages_isolation {ε : Type} (f : Str → Except ε (List Str)) (urls : List Str) :
    ((scrapePagesRun f urls).1.map (fun r => r.url) = urls.filter (fun u => isOkE (f u))) ∧
    (∀ r ∈ (scrapePagesRun f urls).1, f r.url = Except.ok r.data) ∧
    ((scrapePagesRun f urls).2 = urls.filterMap
      (fun u => match f u with | Except.ok _ => none | Except.error e => some e)) := by
  induction urls with
  | nil => exact ⟨rfl, by simp [scrapePagesRun], rfl⟩
  | cons u rest ih =>
    obtain ⟨ih₁, ih₂, ih₃⟩ := ih
    rcases hfu : f u with e | d
    · refine ⟨?_, ?_, ?_⟩
      · simpa [scrapePagesRun, hfu, isOkE, List.filter_cons] using ih₁
      · intro r hr
        rw [scrapePagesRun, hfu] at hr
        exact ih₂ r (by simpa using hr)
      · simpa [scrapePagesRun, hfu, List.filterMap_cons] using ih₃
    · refine ⟨?_, ?_, ?_⟩
      · simpa [scrapePagesRun, hfu, isOkE, List.filter_cons] using ih₁
      · intro r hr
        rw [scrapePagesRun, hfu] at hr
        simp only [List.mem_cons] at hr
        rcases hr with rfl | hr
        · exact hfu
        · exact ih₂ r hr
      · simpa [scrapePagesRun, hfu, List.filterMap_cons] using ih₃

/-- C7 witness: in the concrete three-URL run whose second URL fails,
the first URL's recorded result really is its scraped data. -/
theorem scrapePages_isolation_witness :
    sampleFetch (str "u1") = Except.ok [str "u1"] :=
  (scrapePages_isolation sampleFetch [str "u1", str "u2", str "u3"]).2.1
    ⟨str "u1", [str "u1"]⟩ (by decide)

/-- C8 — Empty-result suppression: `main` writes the combined file
exactly when the combined data is non-empty; in particular nothing is
written when every recorded per-URL result is empty. -/
theorem combined_write_iff (results : List ScrapeResult) :
    (combinedFileWritten results = true ↔ combineAll results ≠ []) ∧
    ((∀ r ∈ results, r.data = []) → combinedFileWritten results = false) := by
  have hiff : combinedFileWritten results = true ↔ combineAll results ≠ [] := by
    rw [combinedFileWritten, decide_eq_true_eq]
    rw [List.length_pos]
  refine ⟨hiff, ?_⟩
  intro hall
  rw [Bool.eq_false_iff]
  intro htrue
  apply hiff.mp htrue
  rw [combineAll]
  rw [List.flatten_eq_nil_iff]
  intro l hl
  rw [List.mem_map] at hl
  obtain ⟨r, hr, rfl⟩ := hl
  exact hall r hr

/-- C8 witness: an empty run writes no combined file. -/
theorem combined_write_iff_witness : combinedFileWritten [] = false :=
  (combined_write_iff []).2 (by simp)

end CourtsInfo
